import Mathlib

set_option maxRecDepth 100000

/- Verification development for the terminal fractal explorer (src/main.rs).

   Modelling conventions:
   * `f64x4` SIMD vectors are modelled as `Fin 4 → ℚ` (exact rational lanes);
     every SIMD arithmetic operation in the source is lanewise, so it is
     modelled by the pointwise operation.  The pan/zoom key handlers, whose
     claims are about floating-point exactness, are instead modelled
     bit-exactly as IEEE-754 binary64 (`F64` below, integer significand and
     exponent with round-to-nearest ties-to-even).
   * `u32` and `u32x4` values are modelled as `ℕ`, with an explicit `% 2 ^ 32`
     at the operations where the source's wrapping arithmetic can actually
     wrap (SIMD integer addition).  Iteration counters never exceed the cap,
     so their increments cannot wrap and are modelled by plain `Nat` addition.
   * The kernels' `loop`/`break` is modelled as an iterate of a guarded step
     function that is the identity once no lane is still active, which is
     exactly when the source loop breaks. -/

abbrev Vec4 (α : Type) : Type := Fin 4 → α

/-- `f64x4::splat` / `u32x4::splat`. -/
def splat {α : Type} (a : α) : Vec4 α := fun _ => a

/-- `const QUADRANTS: [&str; 4]` (main.rs line 17). -/
def QUADRANTS : List String := [ "▖", "▘", "▝", "▗"]

/-- `const TWO_QUADRANTS: [&str; 6]` (main.rs line 18). -/
def TWO_QUADRANTS : List String := [ "▚", "▞", "▄", "▀", "▌", "▐"]

/-- `const THREE_QUADRANTS: [&str; 4]` (main.rs line 19). -/
def THREE_QUADRANTS : List String := [ "▙", "▟", "▛", "▜"]

/-- `const FULL_BLOCK: [&str; 2]` (main.rs line 20). -/
def FULL_BLOCK : List String := [ "█", " "]

/-- `s.chars().next()` on a `&str`: the first character, if any. -/
def strHead (s : String) : Option Char := s.data.head?

/-- `get_pixel` (main.rs lines 131-150).  The argument mirrors
`blocks: [[bool; 2]; 2]` as `((blocks00, blocks01), (blocks10, blocks11))`,
first component = row 0 (top), second component of a row = column 1 (right).
`none` would model a panic of the `.unwrap()`. -/
def get_pixel (blocks : (Bool × Bool) × (Bool × Bool)) : Option Char :=
  match blocks with
  | ((true, true), (true, true)) => strHead (FULL_BLOCK.getD 0 "")
  | ((false, false), (false, false)) => strHead (FULL_BLOCK.getD 1 "")
  | ((false, true), (true, true)) => strHead (THREE_QUADRANTS.getD 1 "")
  | ((true, false), (true, true)) => strHead (THREE_QUADRANTS.getD 0 "")
  | ((true, true), (false, true)) => strHead (THREE_QUADRANTS.getD 3 "")
  | ((true, true), (true, false)) => strHead (THREE_QUADRANTS.getD 2 "")
  | ((false, false), (true, true)) => strHead (TWO_QUADRANTS.getD 2 "")
  | ((true, false), (false, true)) => strHead (TWO_QUADRANTS.getD 0 "")
  | ((true, true), (false, false)) => strHead (TWO_QUADRANTS.getD 3 "")
  | ((false, true), (true, false)) => strHead (TWO_QUADRANTS.getD 1 "")
  | ((false, true), (false, true)) => strHead (TWO_QUADRANTS.getD 4 "")
  | ((true, false), (true, false)) => strHead (TWO_QUADRANTS.getD 5 "")
  | ((false, false), (false, true)) => strHead (QUADRANTS.getD 3 "")
  | ((false, true), (false, false)) => strHead (QUADRANTS.getD 2 "")
  | ((true, false), (false, false)) => strHead (QUADRANTS.getD 1 "")
  | ((false, false), (true, false)) => strHead (QUADRANTS.getD 0 "")

/-- The glyph character actually pushed into the frame (the `.unwrap()` value);
the default is irrelevant because `get_pixel` is total (see the C9 theorem). -/
def get_pixelD (blocks : (Bool × Bool) × (Bool × Bool)) : Char :=
  (get_pixel blocks).getD ' '

/-- `struct Position` (main.rs lines 89-95). -/
structure Position where
  top : ℚ
  bottom : ℚ
  left : ℚ
  right : ℚ
deriving DecidableEq

/-- An IEEE-754 binary64 floating-point value `m * 2 ^ e`, with `m = 0`
(and `e = 0`) for zero and `2 ^ 52 <= |m| < 2 ^ 53` otherwise.  The `f64`
arithmetic of the pan/zoom key handlers is modelled bit-exactly on this type
(normal range only; the handlers' values stay far from overflow and
subnormals). -/
structure F64 where
  m : ℤ
  e : ℤ
deriving DecidableEq

/-- Bit length of a natural number, by fuel (kernel-reducible; the fuel of 400
covers every quantity the concrete evaluations produce). -/
def bitLen : ℕ → ℕ → ℕ
  | 0, _ => 0
  | fuel + 1, n => if n = 0 then 0 else bitLen fuel (n / 2) + 1

/-- Round a positive integer significand `a * 2 ^ E` to 53 bits,
round-to-nearest ties-to-even. -/
def roundPos (a : ℕ) (E : ℤ) : F64 :=
  let L := bitLen 400 a
  if L ≤ 53 then ⟨(a * 2 ^ (53 - L) : ℕ), E - (53 - L)⟩
  else
    let s := L - 53
    let q0 := a / 2 ^ s
    let r := a % 2 ^ s
    let half := 2 ^ (s - 1)
    let q := if half < r then q0 + 1 else if r < half then q0 else q0 + q0 % 2
    if q = 2 ^ 53 then ⟨(2 ^ 52 : ℕ), E + s + 1⟩ else ⟨(q : ℕ), E + s⟩

/-- Round an integer significand `M * 2 ^ E` to a binary64 value. -/
def roundInt (M : ℤ) (E : ℤ) : F64 :=
  if M = 0 then ⟨0, 0⟩
  else if 0 < M then roundPos M.toNat E
  else
    let f := roundPos (-M).toNat E
    ⟨-f.m, f.e⟩

/-- binary64 negation. -/
def fneg (a : F64) : F64 := ⟨-a.m, a.e⟩

/-- binary64 addition (round to nearest, ties to even). -/
def fadd (a b : F64) : F64 :=
  if a.m = 0 then b
  else if b.m = 0 then a
  else
    let E := min a.e b.e
    roundInt (a.m * 2 ^ (a.e - E).toNat + b.m * 2 ^ (b.e - E).toNat) E

/-- binary64 subtraction. -/
def fsub (a b : F64) : F64 := fadd a (fneg b)

/-- binary64 multiplication. -/
def fmul (a b : F64) : F64 :=
  if a.m = 0 then ⟨0, 0⟩
  else if b.m = 0 then ⟨0, 0⟩
  else roundInt (a.m * b.m) (a.e + b.e)

/-- binary64 division (for a nonzero divisor): the quotient is computed with
160 guard bits plus a sticky bit, which determines the round-to-nearest-even
result exactly. -/
def fdiv (a b : F64) : F64 :=
  if a.m = 0 then ⟨0, 0⟩
  else
    let na := a.m.natAbs
    let nb := b.m.natAbs
    let q0 := na * 2 ^ 160 / nb
    let sticky : ℕ := if na * 2 ^ 160 % nb = 0 then 0 else 1
    let Q : ℤ := (q0 * 2 + sticky : ℕ)
    roundInt (if (0 < a.m) = (0 < b.m) then Q else -Q) (a.e - b.e - 161)

/-- The binary64 value of a small integer (exact for `|n| < 2 ^ 53`). -/
def ofIntF (n : ℤ) : F64 := roundInt n 0

/-- The strict value order on binary64 values (the `f64 <` comparison). -/
def flt (a b : F64) : Prop :=
  a.m * 2 ^ (a.e - min a.e b.e).toNat < b.m * 2 ^ (b.e - min a.e b.e).toNat

instance (a b : F64) : Decidable (flt a b) := by
  unfold flt
  infer_instance

/-- `2.0`. -/
def f2 : F64 := ofIntF 2

/-- The binary64 literal `0.9` (nearest double to 9/10, as the Rust compiler
rounds it). -/
def f0_9 : F64 := fdiv (ofIntF 9) (ofIntF 10)

/-- The binary64 literal `1.1` (nearest double to 11/10). -/
def f1_1 : F64 := fdiv (ofIntF 11) (ofIntF 10)

/-- `struct Position` (main.rs lines 89-95) with its `f64` fields modelled
bit-exactly, for the pan/zoom claims. -/
structure PositionF where
  top : F64
  bottom : F64
  left : F64
  right : F64
deriving DecidableEq

/-- `Position::width` (main.rs line 98), binary64. -/
def PositionF.width (p : PositionF) : F64 := fsub p.right p.left

/-- `Position::height` (main.rs line 102), binary64. -/
def PositionF.height (p : PositionF) : F64 := fsub p.bottom p.top

/-- `Position::center` (main.rs line 106), binary64; `.1` is the x component
(Rust `center.0`), `.2` the y component (Rust `center.1`). -/
def PositionF.center (p : PositionF) : F64 × F64 :=
  (fdiv (fadd p.left p.right) f2, fdiv (fadd p.top p.bottom) f2)

/-- The `'w'` key handler (main.rs lines 397-404), binary64. -/
def panWf (p : PositionF) : PositionF :=
  let center := p.center
  let zoom := fdiv p.height f2
  { p with top := fsub center.2 (fmul zoom f1_1),
           bottom := fadd center.2 (fmul zoom f0_9) }

/-- The `'s'` key handler (main.rs lines 405-412), binary64. -/
def panSf (p : PositionF) : PositionF :=
  let center := p.center
  let zoom := fdiv p.height f2
  { p with top := fsub center.2 (fmul zoom f0_9),
           bottom := fadd center.2 (fmul zoom f1_1) }

/-- The `'a'` key handler (main.rs lines 413-420), binary64. -/
def panAf (p : PositionF) : PositionF :=
  let center := p.center
  let zoom := fdiv p.width f2
  { p with left := fsub center.1 (fmul zoom f1_1),
           right := fadd center.1 (fmul zoom f0_9) }

/-- The `'d'` key handler (main.rs lines 421-428), binary64. -/
def panDf (p : PositionF) : PositionF :=
  let center := p.center
  let zoom := fdiv p.width f2
  { p with left := fsub center.1 (fmul zoom f0_9),
           right := fadd center.1 (fmul zoom f1_1) }

/-- The `Up` key handler (zoom in, main.rs lines 429-438), binary64. -/
def zoomInF (p : PositionF) : PositionF :=
  let center := p.center
  let width := p.width
  let height := p.height
  { top := fsub center.2 (fmul (fdiv height f2) f0_9),
    bottom := fadd center.2 (fmul (fdiv height f2) f0_9),
    left := fsub center.1 (fmul (fdiv width f2) f0_9),
    right := fadd center.1 (fmul (fdiv width f2) f0_9) }

/-- The `Down` key handler (zoom out, main.rs lines 439-448), binary64. -/
def zoomOutF (p : PositionF) : PositionF :=
  let center := p.center
  let width := p.width
  let height := p.height
  { top := fsub center.2 (fmul (fdiv height f2) f1_1),
    bottom := fadd center.2 (fmul (fdiv height f2) f1_1),
    left := fsub center.1 (fmul (fdiv width f2) f1_1),
    right := fadd center.1 (fmul (fdiv width f2) f1_1) }

/-- The default viewport (main.rs lines 365-370), binary64. -/
def defaultPositionF : PositionF :=
  ⟨ofIntF (-1), ofIntF 1, ofIntF (-2), ofIntF 1⟩

/-- Iteration-cap events: the `'='` and `'-'` keys. -/
inductive CapEvent where
  | inc
  | dec
deriving DecidableEq

/-- The `'='` and `'-'` key handlers (main.rs lines 452-461).  `max_iterations`
is always a splat vector, so the lexicographic SIMD comparison
`max_iterations > u32x4::splat(10)` is the scalar comparison of the lane value;
the SIMD `+=` wraps modulo `2 ^ 32`. -/
def capStep (cap : ℕ) : CapEvent → ℕ
  | CapEvent.inc => (cap + 10) % 2 ^ 32
  | CapEvent.dec => if 10 < cap then cap - 10 else cap

/-- The cap after a sequence of `'='`/`'-'` presses, from the initial
`u32x4::splat(100)` (main.rs line 372). -/
def capRun (events : List CapEvent) : ℕ := events.foldl capStep 100

/-- The mutable loop state of one fractal kernel closure:
`x`/`zx`, `y`/`zy` and `iteration` (4 lanes each). -/
structure KState where
  zx : Vec4 ℚ
  zy : Vec4 ℚ
  iteration : Vec4 ℕ

/-- The per-lane squared magnitude `x * x + y * y` tested against 4. -/
def magL (s : KState) (i : Fin 4) : ℚ := s.zx i * s.zx i + s.zy i * s.zy i

/-- One lane of `still_active = mask_magnitude & mask_iteration`:
`magnitude < 4 && iteration < max_iterations`. -/
def laneActive (max_iterations : Vec4 ℕ) (s : KState) (i : Fin 4) : Bool :=
  decide (magL s i < 4) && decide (s.iteration i < max_iterations i)

/-- `still_active.any()`. -/
def anyActive (max_iterations : Vec4 ℕ) (s : KState) : Bool :=
  (List.finRange 4).any (laneActive max_iterations s)

/-- The shared loop body of the three kernel closures: the recurrence
(`fx`, `fy`, computed from the pre-update state) is applied on every lane,
while `iteration + still_active.select(1, 0)` increments only active lanes. -/
def kernelBody (fx fy : Fin 4 → ℚ → ℚ → ℚ) (max_iterations : Vec4 ℕ)
    (s : KState) : KState where
  zx := fun i => fx i (s.zx i) (s.zy i)
  zy := fun i => fy i (s.zx i) (s.zy i)
  iteration := fun i =>
    if laneActive max_iterations s i then s.iteration i + 1 else s.iteration i

/-- One iteration of the `loop`: if no lane is still active the loop has
broken and the state is unchanged, otherwise the body runs. -/
def stepIf (body : KState → KState) (max_iterations : Vec4 ℕ) (s : KState) :
    KState :=
  if anyActive max_iterations s then body s else s

/-- `FRACTALS` indices 0, 1, 2 (main.rs lines 24-87). -/
inductive FractalVariant where
  | mandelbrot
  | burningShip
  | julia
deriving DecidableEq

/-- The per-lane x recurrence of each variant (`x_new` / `zx_new`). -/
def stepX : FractalVariant → ℚ → ℚ → ℚ → ℚ
  | FractalVariant.mandelbrot => fun cx zx zy => zx * zx - zy * zy + cx
  | FractalVariant.burningShip => fun cx zx zy => zx * zx - zy * zy + cx
  | FractalVariant.julia => fun _ zx zy => zx * zx - zy * zy + 0.156

/-- The per-lane y recurrence of each variant. -/
def stepY : FractalVariant → ℚ → ℚ → ℚ → ℚ
  | FractalVariant.mandelbrot => fun cy zx zy => 2 * zx * zy + cy
  | FractalVariant.burningShip => fun cy zx zy => |2 * zx * zy| + cy
  | FractalVariant.julia => fun _ zx zy => 2 * zx * zy + 0.8

/-- The initial iterate of each variant: zero for Mandelbrot, the scaled
coordinate for Burning Ship and Julia; `iteration = splat(0)`. -/
def fractalInit : FractalVariant → Vec4 ℚ → Vec4 ℚ → KState
  | FractalVariant.mandelbrot => fun _ _ => ⟨splat 0, splat 0, splat 0⟩
  | FractalVariant.burningShip => fun sx sy => ⟨sx, sy, splat 0⟩
  | FractalVariant.julia => fun sx sy => ⟨sx, sy, splat 0⟩

/-- The loop body of `FRACTALS[v]` applied to scaled coordinates. -/
def fractalBody (v : FractalVariant) (sx sy : Vec4 ℚ) (cap : Vec4 ℕ) :
    KState → KState :=
  kernelBody (fun i => stepX v (sx i)) (fun i => stepY v (sy i)) cap

/-- A fuel bound on the number of loop iterations: every iteration taken while
some lane is active decreases `Σ (cap i - iteration i)` by at least one, so the
loop always breaks within `cap 0 + cap 1 + cap 2 + cap 3` iterations. -/
def fuel0 (cap : Vec4 ℕ) : ℕ := cap 0 + cap 1 + cap 2 + cap 3 + 1

/-- The kernel state after `n` iterations of the `loop` (frozen once the loop
has broken). -/
def fractalSteps (v : FractalVariant) (sx sy : Vec4 ℚ) (cap : Vec4 ℕ)
    (n : ℕ) : KState :=
  (stepIf (fractalBody v sx sy cap) cap)^[n] (fractalInit v sx sy)

/-- `FRACTALS[v](scaled_x, scaled_y, max_iterations)`: the iteration vector
returned after the loop breaks. -/
def fractalKernel (v : FractalVariant) (sx sy : Vec4 ℚ) (cap : Vec4 ℕ) :
    Vec4 ℕ :=
  (fractalSteps v sx sy cap (fuel0 cap)).iteration

/-- A lane has stopped: its escape test failed (`magnitude >= 4`) or its
iteration count reached the cap. -/
abbrev laneStopped (max_iterations : Vec4 ℕ) (s : KState) (i : Fin 4) : Prop :=
  4 ≤ magL s i ∨ max_iterations i ≤ s.iteration i

/-- The per-lane additive x constant of a variant's recurrence (`scaled_x`
for Mandelbrot and Burning Ship, the fixed Julia constant otherwise). -/
def addX (v : FractalVariant) (sx : ℚ) : ℚ :=
  match v with
  | FractalVariant.julia => 0.156
  | _ => sx

/-- The per-lane additive y constant of a variant's recurrence. -/
def addY (v : FractalVariant) (sy : ℚ) : ℚ :=
  match v with
  | FractalVariant.julia => 0.8
  | _ => sy

/-- Squared magnitude of the additive constant of lane `i`. -/
def addSq (v : FractalVariant) (sx sy : Vec4 ℚ) (i : Fin 4) : ℚ :=
  addX v (sx i) ^ 2 + addY v (sy i) ^ 2

/-- Invariant justifying that an escaped lane never re-activates: on every
reachable state, each lane either has a small additive constant, or its
magnitude dominates the constant's squared magnitude, or it still sits at the
Mandelbrot seed zero. -/
def magInv (v : FractalVariant) (sx sy : Vec4 ℚ) (s : KState) (i : Fin 4) :
    Prop :=
  addSq v sx sy i ≤ 4 ∨ addSq v sx sy i ≤ magL s i ∨
    (s.zx i = 0 ∧ s.zy i = 0)

/-- Scalar (width-1) kernel state: the spec's "plain scalar loop with early
break" reading of the vectorized kernel. -/
structure SKState where
  zx : ℚ
  zy : ℚ
  iteration : ℕ
deriving DecidableEq

/-- Scalar squared magnitude. -/
def sMag (s : SKState) : ℚ := s.zx * s.zx + s.zy * s.zy

/-- Scalar `still_active` test. -/
def sActive (max_iterations : ℕ) (s : SKState) : Bool :=
  decide (sMag s < 4) && decide (s.iteration < max_iterations)

/-- Scalar loop body (same recurrences, width 1). -/
def sBody (v : FractalVariant) (x y : ℚ) (max_iterations : ℕ) (s : SKState) :
    SKState :=
  ⟨stepX v x s.zx s.zy, stepY v y s.zx s.zy,
    if sActive max_iterations s then s.iteration + 1 else s.iteration⟩

/-- Scalar guarded loop iteration (identity after the early break). -/
def sStepIf (v : FractalVariant) (x y : ℚ) (max_iterations : ℕ) (s : SKState) :
    SKState :=
  if sActive max_iterations s then sBody v x y max_iterations s else s

/-- Scalar initial state. -/
def sInit (v : FractalVariant) (x y : ℚ) : SKState :=
  match v with
  | FractalVariant.mandelbrot => ⟨0, 0, 0⟩
  | FractalVariant.burningShip => ⟨x, y, 0⟩
  | FractalVariant.julia => ⟨x, y, 0⟩

/-- Modelled from the spec: the width-1 scalar reference kernel ("this
generalizes cleanly to any lane width, including width 1 (plain scalar loop
with early break)"). -/
def sFractalKernel (v : FractalVariant) (x y : ℚ) (max_iterations : ℕ) : ℕ :=
  ((sStepIf v x y max_iterations)^[max_iterations + 1]
    (sInit v x y)).iteration

/-- The unguarded orbit of a point under a variant's recurrence (the kernels
update `z` on every loop iteration regardless of the lane masks). -/
def orbit (v : FractalVariant) (x y : ℚ) : ℕ → ℚ × ℚ
  | 0 => ((sInit v x y).zx, (sInit v x y).zy)
  | n + 1 =>
      (stepX v x (orbit v x y n).1 (orbit v x y n).2,
       stepY v y (orbit v x y n).1 (orbit v x y n).2)

/-- Squared magnitude of an orbit point. -/
def magP (z : ℚ × ℚ) : ℚ := z.1 * z.1 + z.2 * z.2

/-- Truncation of a rational toward zero (the rounding of Rust's float→int
`as` casts and of `%` on `f64`). -/
def ratTrunc (q : ℚ) : ℤ := q.num / (q.den : ℤ)

/-- Rust's `%` on `f64` (remainder with the dividend's sign):
`a - b * trunc(a / b)`. -/
def fmod (a b : ℚ) : ℚ := a - b * ((ratTrunc (a / b) : ℤ) : ℚ)

/-- Lanewise `simd_min`. -/
def vmin (a b : Vec4 ℚ) : Vec4 ℚ := fun i => min (a i) (b i)

/-- Lanewise `simd_max`. -/
def vmax (a b : Vec4 ℚ) : Vec4 ℚ := fun i => max (a i) (b i)

/-- Lanewise `f64 %`. -/
def vfmod (a b : Vec4 ℚ) : Vec4 ℚ := fun i => fmod (a i) (b i)

/-- `hsl_to_rgb` (main.rs lines 152-170); the argument triple is
`[hsl[0], hsl[1], hsl[2]]` and the result is `[r, g, b]`. -/
def hsl_to_rgb (hsl0 hsl1 hsl2 : Vec4 ℚ) : Vec4 ℚ × Vec4 ℚ × Vec4 ℚ :=
  let s := hsl1 / splat 100
  let l := hsl2 / splat 100
  let k := fun (n : Vec4 ℚ) => vfmod (n + hsl0 / splat 30) (splat 12)
  let a := s * vmin l (splat 1 - l)
  let f := fun (n : Vec4 ℚ) =>
    l - a * vmax (splat (-1))
      (vmin (k n - splat 3) (vmin (splat 9 - k n) (splat 1)))
  (splat 255 * f (splat 0), splat 255 * f (splat 8), splat 255 * f (splat 4))

/-- `get_color` (main.rs lines 172-183): full-vector equality against the cap
gives black, a zero lane-0 iteration gives white, otherwise the HSL law. -/
def get_color (iteration max_iterations : Vec4 ℕ) :
    Vec4 ℚ × Vec4 ℚ × Vec4 ℚ :=
  if iteration = max_iterations then (splat 0, splat 0, splat 0)
  else if iteration 0 = 0 then (splat 255, splat 255, splat 255)
  else
    let h := (fun i => ((iteration i : ℕ) : ℚ)) * splat 360 /
      (fun i => ((max_iterations i : ℕ) : ℚ))
    hsl_to_rgb h (splat 100) (splat 50)

/-- Modelled from the spec: scalar `hsl_to_rgb` (every vector replaced by one
scalar). -/
def hsl_to_rgb_s (hsl0 hsl1 hsl2 : ℚ) : ℚ × ℚ × ℚ :=
  let s := hsl1 / 100
  let l := hsl2 / 100
  let k := fun (n : ℚ) => fmod (n + hsl0 / 30) 12
  let a := s * min l (1 - l)
  let f := fun (n : ℚ) => l - a * max (-1) (min (k n - 3) (min (9 - k n) 1))
  (255 * f 0, 255 * f 8, 255 * f 4)

/-- Modelled from the spec: scalar `get_color` (width 1, where the lane-0
extraction and the full-vector equality both collapse to the scalar test). -/
def get_color_s (iteration max_iterations : ℕ) : ℚ × ℚ × ℚ :=
  if iteration = max_iterations then (0, 0, 0)
  else if iteration = 0 then (255, 255, 255)
  else hsl_to_rgb_s ((iteration : ℚ) * 360 / (max_iterations : ℚ)) 100 50

/-- `scale_number` (main.rs lines 121-129). -/
def scale_number (number in_min in_max out_min out_max : Vec4 ℚ) : Vec4 ℚ :=
  (number - in_min) * (out_max - out_min) / (in_max - in_min) + out_min

/-- Scalar `scale_number`. -/
def scale_number_s (number in_min in_max out_min out_max : ℚ) : ℚ :=
  (number - in_min) * (out_max - out_min) / (in_max - in_min) + out_min

/-- Lanewise wrapping `u32x4` addition. -/
def u32add (a b : Vec4 ℕ) : Vec4 ℕ := fun i => (a i + b i) % 2 ^ 32

/-- Scalar wrapping `u32` addition. -/
def u32add_s (a b : ℕ) : ℕ := (a + b) % 2 ^ 32

/-- Rust's `f64 as u8` cast: truncate toward zero, saturating to `[0, 255]`
(negative values collapse to 0 via `Int.toNat`). -/
def u8cast (q : ℚ) : ℕ := min 255 (ratTrunc q).toNat

/-- `struct Pixel` (main.rs lines 114-119), with the color channels already
cast to `u8` (modelled as `ℕ`). -/
structure Pixel where
  character : Char
  foreground_color : ℕ × ℕ × ℕ
  background_color : Option (ℕ × ℕ × ℕ)
deriving DecidableEq

/-- `subpixel_values[sy][sx]` inside `calculate_pixel` (main.rs lines
196-217): the kernel evaluated at the rescaled subpixel coordinates. -/
def subpixelValue (pixel_x pixel_y width height : ℕ) (position : Position)
    (max_iterations : Vec4 ℕ) (v : FractalVariant) (sy sx : Fin 2) :
    Vec4 ℕ :=
  fractalKernel v
    (scale_number (splat ((pixel_x * 2 + sx.val : ℕ) : ℚ)) (splat 0)
      (splat ((width : ℚ) * 2)) (splat position.left) (splat position.right))
    (scale_number (splat ((pixel_y * 2 + sy.val : ℕ) : ℚ)) (splat 0)
      (splat ((height : ℚ) * 2)) (splat position.top) (splat position.bottom))
    max_iterations

/-- The traversal order of the two subpixel loops: `subpixel_y` outer,
`subpixel_x` inner. -/
def subpixelOrder : List (Fin 2 × Fin 2) := [(0, 0), (0, 1), (1, 0), (1, 1)]

/-- `subpixels_sum` (main.rs lines 219-222), wrapping per lane. -/
def subpixelsSum (vals : Fin 2 → Fin 2 → Vec4 ℕ) : Vec4 ℕ :=
  u32add (u32add (u32add (vals 0 0) (vals 0 1)) (vals 1 0)) (vals 1 1)

/-- `subpixels_average = subpixels_sum / u32x4::splat(4)` (main.rs line 224). -/
def subpixelsAverage (vals : Fin 2 → Fin 2 → Vec4 ℕ) : Vec4 ℕ :=
  fun i => subpixelsSum vals i / 4

/-- The classification `value >= avg` on lane 0 (main.rs lines 232-234). -/
def subpixelOn (vals : Fin 2 → Fin 2 → Vec4 ℕ) (p : Fin 2 × Fin 2) : Bool :=
  decide (subpixelsAverage vals 0 ≤ vals p.1 p.2 0)

/-- `subpixels_on_values` in traversal order (main.rs lines 230-241). -/
def subpixelsOnValues (vals : Fin 2 → Fin 2 → Vec4 ℕ) : List (Vec4 ℕ) :=
  (subpixelOrder.filter (subpixelOn vals)).map (fun p => vals p.1 p.2)

/-- `subpixels_off_values` in traversal order. -/
def subpixelsOffValues (vals : Fin 2 → Fin 2 → Vec4 ℕ) : List (Vec4 ℕ) :=
  (subpixelOrder.filter (fun p => ! subpixelOn vals p)).map
    (fun p => vals p.1 p.2)

/-- The boolean mask `subpixels` handed to `get_pixel`. -/
def subpixelsMask (vals : Fin 2 → Fin 2 → Vec4 ℕ) :
    (Bool × Bool) × (Bool × Bool) :=
  ((subpixelOn vals (0, 0), subpixelOn vals (0, 1)),
   (subpixelOn vals (1, 0), subpixelOn vals (1, 1)))

/-- The wrapping `+=` accumulation over a value list (main.rs lines 256-270). -/
def wrapSumList (l : List (Vec4 ℕ)) : Vec4 ℕ := l.foldl u32add (splat 0)

/-- The guarded average of a value list: `splat(0)` when empty, otherwise the
accumulated sum divided by the length. -/
def listAverage (l : List (Vec4 ℕ)) : Vec4 ℕ :=
  if l.isEmpty then splat 0 else fun i => wrapSumList l i / l.length

/-- Lane-0 extraction plus `as u8` of a color triple (main.rs lines 248-252). -/
def rgbLane0 (c : Vec4 ℚ × Vec4 ℚ × Vec4 ℚ) : ℕ × ℕ × ℕ :=
  (u8cast (c.1 0), u8cast (c.2.1 0), u8cast (c.2.2 0))

/-- `calculate_pixel` (main.rs lines 185-293); the partially applied
`subpixelValue pixel_x pixel_y width height position max_iterations v` plays
the role of the `subpixel_values` array. -/
def calculate_pixel (pixel_x pixel_y width height : ℕ) (position : Position)
    (max_iterations : Vec4 ℕ) (v : FractalVariant) : Pixel :=
  if (subpixelsOnValues
      (subpixelValue pixel_x pixel_y width height position max_iterations
        v)).length = 4 then
    { character := get_pixelD (subpixelsMask
        (subpixelValue pixel_x pixel_y width height position max_iterations v))
      foreground_color :=
        rgbLane0 (get_color (subpixelsAverage
          (subpixelValue pixel_x pixel_y width height position max_iterations
            v)) max_iterations)
      background_color := none }
  else
    { character := get_pixelD (subpixelsMask
        (subpixelValue pixel_x pixel_y width height position max_iterations v))
      foreground_color :=
        rgbLane0 (get_color (listAverage (subpixelsOnValues
          (subpixelValue pixel_x pixel_y width height position max_iterations
            v))) max_iterations)
      background_color :=
        some (rgbLane0 (get_color (listAverage (subpixelsOffValues
          (subpixelValue pixel_x pixel_y width height position max_iterations
            v))) max_iterations)) }

/-- Modelled from the spec: scalar subpixel value of the width-1 reference
implementation. -/
def subpixelValue_s (pixel_x pixel_y width height : ℕ) (position : Position)
    (max_iterations : ℕ) (v : FractalVariant) (sy sx : Fin 2) : ℕ :=
  sFractalKernel v
    (scale_number_s ((pixel_x * 2 + sx.val : ℕ) : ℚ) 0 ((width : ℚ) * 2)
      position.left position.right)
    (scale_number_s ((pixel_y * 2 + sy.val : ℕ) : ℚ) 0 ((height : ℚ) * 2)
      position.top position.bottom)
    max_iterations

/-- Scalar `subpixels_sum`. -/
def subpixelsSum_s (vals : Fin 2 → Fin 2 → ℕ) : ℕ :=
  u32add_s (u32add_s (u32add_s (vals 0 0) (vals 0 1)) (vals 1 0)) (vals 1 1)

/-- Scalar `subpixels_average`. -/
def subpixelsAverage_s (vals : Fin 2 → Fin 2 → ℕ) : ℕ :=
  subpixelsSum_s vals / 4

/-- Scalar on/off classification. -/
def subpixelOn_s (vals : Fin 2 → Fin 2 → ℕ) (p : Fin 2 × Fin 2) : Bool :=
  decide (subpixelsAverage_s vals ≤ vals p.1 p.2)

/-- Scalar `subpixels_on_values`. -/
def subpixelsOnValues_s (vals : Fin 2 → Fin 2 → ℕ) : List ℕ :=
  (subpixelOrder.filter (subpixelOn_s vals)).map (fun p => vals p.1 p.2)

/-- Scalar `subpixels_off_values`. -/
def subpixelsOffValues_s (vals : Fin 2 → Fin 2 → ℕ) : List ℕ :=
  (subpixelOrder.filter (fun p => ! subpixelOn_s vals p)).map
    (fun p => vals p.1 p.2)

/-- Scalar boolean mask. -/
def subpixelsMask_s (vals : Fin 2 → Fin 2 → ℕ) :
    (Bool × Bool) × (Bool × Bool) :=
  ((subpixelOn_s vals (0, 0), subpixelOn_s vals (0, 1)),
   (subpixelOn_s vals (1, 0), subpixelOn_s vals (1, 1)))

/-- Scalar wrapping accumulation. -/
def wrapSumList_s (l : List ℕ) : ℕ := l.foldl u32add_s 0

/-- Scalar guarded average. -/
def listAverage_s (l : List ℕ) : ℕ :=
  if l.isEmpty then 0 else wrapSumList_s l / l.length

/-- Scalar color cast. -/
def rgb_s (c : ℚ × ℚ × ℚ) : ℕ × ℕ × ℕ :=
  (u8cast c.1, u8cast c.2.1, u8cast c.2.2)

/-- Modelled from the spec: the width-1 scalar reference implementation of
`calculate_pixel` ("calculate_pixel is extensionally equal to the scalar
reference implementation obtained by replacing every 4-lane vector by one
scalar"). -/
def calculate_pixel_s (pixel_x pixel_y width height : ℕ) (position : Position)
    (max_iterations : ℕ) (v : FractalVariant) : Pixel :=
  if (subpixelsOnValues_s
      (subpixelValue_s pixel_x pixel_y width height position max_iterations
        v)).length = 4 then
    { character := get_pixelD (subpixelsMask_s
        (subpixelValue_s pixel_x pixel_y width height position max_iterations
          v))
      foreground_color :=
        rgb_s (get_color_s (subpixelsAverage_s
          (subpixelValue_s pixel_x pixel_y width height position max_iterations
            v)) max_iterations)
      background_color := none }
  else
    { character := get_pixelD (subpixelsMask_s
        (subpixelValue_s pixel_x pixel_y width height position max_iterations
          v))
      foreground_color :=
        rgb_s (get_color_s (listAverage_s (subpixelsOnValues_s
          (subpixelValue_s pixel_x pixel_y width height position max_iterations
            v))) max_iterations)
      background_color :=
        some (rgb_s (get_color_s (listAverage_s (subpixelsOffValues_s
          (subpixelValue_s pixel_x pixel_y width height position max_iterations
            v))) max_iterations)) }

/-- The all-lanes-equal vector state corresponding to a scalar state. -/
def vecOf (s : SKState) : KState := ⟨splat s.zx, splat s.zy, splat s.iteration⟩

/-- The scalar kernel state after `n` guarded loop iterations. -/
def sSteps (v : FractalVariant) (x y : ℚ) (C : ℕ) (n : ℕ) : SKState :=
  (sStepIf v x y C)^[n] (sInit v x y)

theorem escape_lb (wx wy cx cy : ℚ) (hw : 16 ≤ wx ^ 2 + wy ^ 2) (hc : cx ^ 2 + cy ^ 2 ≤ 4) :
    4 ≤ (wx + cx) ^ 2 + (wy + cy) ^ 2 := by
  have hcs : (wx * cx + wy * cy) ^ 2 ≤ (wx ^ 2 + wy ^ 2) * (cx ^ 2 + cy ^ 2) := by
    nlinarith [sq_nonneg (wx * cy - wy * cx)]
  have hkey : 4 * ((wx ^ 2 + wy ^ 2) * (cx ^ 2 + cy ^ 2)) ≤
      (wx ^ 2 + wy ^ 2 + (cx ^ 2 + cy ^ 2) - 4) ^ 2 := by
    nlinarith [sq_nonneg (wx ^ 2 + wy ^ 2 - (cx ^ 2 + cy ^ 2) - 12), sq_nonneg cx, sq_nonneg cy]
  rcases le_or_lt 0 (wx * cx + wy * cy) with h | h
  · nlinarith [sq_nonneg cx, sq_nonneg cy]
  · by_contra hcon
    push_neg at hcon
    have h1 : wx ^ 2 + wy ^ 2 + (cx ^ 2 + cy ^ 2) - 4 < -(2 * (wx * cx + wy * cy)) := by
      nlinarith
    have h2 : 0 ≤ wx ^ 2 + wy ^ 2 + (cx ^ 2 + cy ^ 2) - 4 := by
      nlinarith [sq_nonneg cx, sq_nonneg cy]
    have h3 : (wx ^ 2 + wy ^ 2 + (cx ^ 2 + cy ^ 2) - 4) ^ 2 <
        (-(2 * (wx * cx + wy * cy))) ^ 2 := by
      apply pow_lt_pow_left₀ h1 h2
      norm_num
    nlinarith [h3, hcs, hkey]

theorem escape_lb_big (wx wy cx cy m : ℚ) (hw : wx ^ 2 + wy ^ 2 = m ^ 2)
    (hc4 : 4 < cx ^ 2 + cy ^ 2) (hm : cx ^ 2 + cy ^ 2 ≤ m) :
    cx ^ 2 + cy ^ 2 ≤ (wx + cx) ^ 2 + (wy + cy) ^ 2 := by
  have hcs : (wx * cx + wy * cy) ^ 2 ≤ (wx ^ 2 + wy ^ 2) * (cx ^ 2 + cy ^ 2) := by
    nlinarith [sq_nonneg (wx * cy - wy * cx)]
  have hm4 : 4 < m := lt_of_lt_of_le hc4 hm
  rcases le_or_lt 0 (wx * cx + wy * cy) with h | h
  · nlinarith
  · by_contra hcon
    push_neg at hcon
    have h1 : m ^ 2 < -(2 * (wx * cx + wy * cy)) := by nlinarith
    have h3 : (m ^ 2) ^ 2 < (-(2 * (wx * cx + wy * cy))) ^ 2 := by
      apply pow_lt_pow_left₀ h1 (sq_nonneg m)
      norm_num
    have h4 : 4 * (cx ^ 2 + cy ^ 2) < m ^ 2 := by nlinarith
    nlinarith [h3, hcs, sq_nonneg m]

/-- All three recurrences are "square z, then add the constant": subtracting
the additive constant leaves a vector whose squared magnitude is the square of
the current squared magnitude. -/
theorem step_shape (v : FractalVariant) (cx cy zx zy : ℚ) :
    (stepX v cx zx zy - addX v cx) ^ 2 + (stepY v cy zx zy - addY v cy) ^ 2 =
      (zx * zx + zy * zy) ^ 2 := by
  cases v <;> simp only [stepX, stepY, addX, addY]
  · ring
  · rw [add_sub_cancel_right, add_sub_cancel_right, sq_abs]
    ring
  · rw [add_sub_cancel_right, add_sub_cancel_right]
    ring

theorem magInv_init (v : FractalVariant) (sx sy : Vec4 ℚ) (i : Fin 4) :
    magInv v sx sy (fractalInit v sx sy) i := by
  cases v
  · exact Or.inr (Or.inr ⟨rfl, rfl⟩)
  · refine Or.inr (Or.inl (le_of_eq ?_))
    simp only [fractalInit, addSq, addX, addY, magL]
    ring
  · refine Or.inl ?_
    simp only [addSq, addX, addY]
    norm_num

theorem magL_body (fx fy : Fin 4 → ℚ → ℚ → ℚ) (cap : Vec4 ℕ) (s : KState) (i : Fin 4) :
    magL (kernelBody fx fy cap s) i =
      fx i (s.zx i) (s.zy i) * fx i (s.zx i) (s.zy i) +
      fy i (s.zx i) (s.zy i) * fy i (s.zx i) (s.zy i) := rfl

theorem magInv_body (v : FractalVariant) (sx sy : Vec4 ℚ) (cap : Vec4 ℕ)
    (s : KState) (i : Fin 4) (h : magInv v sx sy s i) :
    magInv v sx sy (fractalBody v sx sy cap s) i := by
  rcases h with h | h | h
  · exact Or.inl h
  · rcases le_or_lt (addSq v sx sy i) 4 with h4 | h4
    · exact Or.inl h4
    · refine Or.inr (Or.inl ?_)
      have hshape := step_shape v (sx i) (sy i) (s.zx i) (s.zy i)
      have hb := escape_lb_big (stepX v (sx i) (s.zx i) (s.zy i) - addX v (sx i))
        (stepY v (sy i) (s.zx i) (s.zy i) - addY v (sy i))
        (addX v (sx i)) (addY v (sy i)) (magL s i)
        (by rw [hshape, magL])
        (by simpa only [addSq] using h4)
        (by simpa only [addSq] using h)
      simp only [sub_add_cancel] at hb
      calc addSq v sx sy i = addX v (sx i) ^ 2 + addY v (sy i) ^ 2 := rfl
        _ ≤ _ := hb
        _ = magL (fractalBody v sx sy cap s) i := by
            simp only [fractalBody, magL_body]; ring
  · refine Or.inr (Or.inl ?_)
    have hshape := step_shape v (sx i) (sy i) (s.zx i) (s.zy i)
    rw [h.1, h.2] at hshape
    norm_num at hshape
    have hx : stepX v (sx i) 0 0 = addX v (sx i) := by
      nlinarith [hshape, sq_nonneg (stepX v (sx i) 0 0 - addX v (sx i)),
        sq_nonneg (stepY v (sy i) 0 0 - addY v (sy i))]
    have hy : stepY v (sy i) 0 0 = addY v (sy i) := by
      nlinarith [hshape, sq_nonneg (stepX v (sx i) 0 0 - addX v (sx i)),
        sq_nonneg (stepY v (sy i) 0 0 - addY v (sy i))]
    have hz : magL (fractalBody v sx sy cap s) i = addSq v sx sy i := by
      simp only [fractalBody, magL_body, h.1, h.2, hx, hy, addSq]
      ring
    rw [hz]

theorem stopped_mag_body (v : FractalVariant) (sx sy : Vec4 ℚ) (cap : Vec4 ℕ)
    (s : KState) (i : Fin 4) (hinv : magInv v sx sy s i) (hmag : 4 ≤ magL s i) :
    4 ≤ magL (fractalBody v sx sy cap s) i := by
  have hshape := step_shape v (sx i) (sy i) (s.zx i) (s.zy i)
  have hbody : magL (fractalBody v sx sy cap s) i =
      (stepX v (sx i) (s.zx i) (s.zy i) - addX v (sx i) + addX v (sx i)) ^ 2 +
      (stepY v (sy i) (s.zx i) (s.zy i) - addY v (sy i) + addY v (sy i)) ^ 2 := by
    simp only [fractalBody, magL_body]
    ring
  have hm : (4 : ℚ) ≤ s.zx i * s.zx i + s.zy i * s.zy i := hmag
  rcases hinv with h | h | h
  · rw [hbody]
    apply escape_lb
    · rw [hshape]
      nlinarith [hm]
    · simpa only [addSq] using h
  · rcases le_or_lt (addSq v sx sy i) 4 with h4 | h4
    · rw [hbody]
      apply escape_lb
      · rw [hshape]
        nlinarith [hm]
      · simpa only [addSq] using h4
    · have hb := escape_lb_big (stepX v (sx i) (s.zx i) (s.zy i) - addX v (sx i))
        (stepY v (sy i) (s.zx i) (s.zy i) - addY v (sy i))
        (addX v (sx i)) (addY v (sy i)) (magL s i)
        (by rw [hshape, magL])
        (by simpa only [addSq] using h4)
        (by simpa only [addSq] using h)
      simp only [sub_add_cancel] at hb
      have h4' : (4 : ℚ) < addX v (sx i) ^ 2 + addY v (sy i) ^ 2 := by
        simpa only [addSq] using h4
      calc (4 : ℚ) ≤ addX v (sx i) ^ 2 + addY v (sy i) ^ 2 := le_of_lt h4'
        _ ≤ _ := hb
        _ = magL (fractalBody v sx sy cap s) i := by
            simp only [fractalBody, magL_body]
            ring
  · exfalso
    have hz : magL s i = 0 := by simp [magL, h.1, h.2]
    rw [hz] at hmag
    linarith

theorem laneActive_eq_false (cap : Vec4 ℕ) (s : KState) (i : Fin 4)
    (h : laneStopped cap s i) : laneActive cap s i = false := by
  rcases h with h | h
  · have hn : ¬ magL s i < 4 := not_lt.mpr h
    simp [laneActive, hn]
  · have hn : ¬ s.iteration i < cap i := not_lt.mpr h
    simp [laneActive, hn]

theorem fractalSteps_succ (v : FractalVariant) (sx sy : Vec4 ℚ) (cap : Vec4 ℕ)
    (n : ℕ) :
    fractalSteps v sx sy cap (n + 1) =
      stepIf (fractalBody v sx sy cap) cap (fractalSteps v sx sy cap n) := by
  simp [fractalSteps, Function.iterate_succ_apply']

theorem magInv_steps (v : FractalVariant) (sx sy : Vec4 ℚ) (cap : Vec4 ℕ)
    (n : ℕ) (i : Fin 4) : magInv v sx sy (fractalSteps v sx sy cap n) i := by
  induction n with
  | zero => exact magInv_init v sx sy i
  | succ n ih =>
    rw [fractalSteps_succ]
    unfold stepIf
    split
    · exact magInv_body v sx sy cap _ i ih
    · exact ih

theorem stopped_step (v : FractalVariant) (sx sy : Vec4 ℚ) (cap : Vec4 ℕ)
    (n : ℕ) (i : Fin 4) (h : laneStopped cap (fractalSteps v sx sy cap n) i) :
    laneStopped cap (fractalSteps v sx sy cap (n + 1)) i ∧
      (fractalSteps v sx sy cap (n + 1)).iteration i =
        (fractalSteps v sx sy cap n).iteration i := by
  rw [fractalSteps_succ]
  unfold stepIf
  split
  · have hfalse := laneActive_eq_false cap _ i h
    have hiter : (fractalBody v sx sy cap (fractalSteps v sx sy cap n)).iteration i =
        (fractalSteps v sx sy cap n).iteration i := by
      simp [fractalBody, kernelBody, hfalse]
    refine ⟨?_, hiter⟩
    rcases h with hmag | hcap
    · exact Or.inl (stopped_mag_body v sx sy cap _ i (magInv_steps v sx sy cap n i) hmag)
    · refine Or.inr ?_
      rw [hiter]
      exact hcap
  · exact ⟨h, rfl⟩

theorem stopped_frozen_aux (v : FractalVariant) (sx sy : Vec4 ℚ) (cap : Vec4 ℕ)
    (n : ℕ) (i : Fin 4) (h : laneStopped cap (fractalSteps v sx sy cap n) i) :
    ∀ j, laneStopped cap (fractalSteps v sx sy cap (n + j)) i ∧
      (fractalSteps v sx sy cap (n + j)).iteration i =
        (fractalSteps v sx sy cap n).iteration i := by
  intro j
  induction j with
  | zero => exact ⟨h, rfl⟩
  | succ j ih =>
    have hs := stopped_step v sx sy cap (n + j) i ih.1
    exact ⟨hs.1, hs.2.trans ih.2⟩

/-- Claim C1: in every FractalKernel variant, once a lane has stopped (its
magnitude reached at least 4, or its iteration count reached the cap), that
lane's iteration count never changes on any later loop step: for every input
and every loop iteration, a stopped lane retains its iteration count and does
not accumulate further increments. -/
theorem kernel_stopped_frozen (v : FractalVariant) (sx sy : Vec4 ℚ)
    (cap : Vec4 ℕ) (n j : ℕ) (i : Fin 4)
    (h : laneStopped cap (fractalSteps v sx sy cap n) i) :
    (fractalSteps v sx sy cap (n + j)).iteration i =
      (fractalSteps v sx sy cap n).iteration i :=
  (stopped_frozen_aux v sx sy cap n i h j).2

theorem kernel_stopped_frozen_witness :
    laneStopped (splat 5)
      (fractalSteps FractalVariant.mandelbrot (splat 3) (splat 0) (splat 5) 1) 0 ∧
    (fractalSteps FractalVariant.mandelbrot (splat 3) (splat 0) (splat 5)
      (1 + 3)).iteration 0 =
      (fractalSteps FractalVariant.mandelbrot (splat 3) (splat 0) (splat 5)
        1).iteration 0 := by
  have hstop : laneStopped (splat 5)
      (fractalSteps FractalVariant.mandelbrot (splat 3) (splat 0) (splat 5) 1) 0 := by
    have h1 : fractalSteps FractalVariant.mandelbrot (splat 3) (splat 0) (splat 5) 1 =
        stepIf (fractalBody FractalVariant.mandelbrot (splat 3) (splat 0) (splat 5))
          (splat 5) (fractalInit FractalVariant.mandelbrot (splat 3) (splat 0)) := by
      simp [fractalSteps]
    rw [h1]
    simp only [stepIf, anyActive, laneActive, fractalInit, fractalBody, kernelBody,
      magL, splat, List.finRange, List.any]
    norm_num [stepX, stepY, laneStopped, magL]
  exact ⟨hstop, kernel_stopped_frozen FractalVariant.mandelbrot (splat 3) (splat 0)
    (splat 5) 1 3 0 hstop⟩

theorem anyActive_vecOf (C : ℕ) (p : SKState) :
    anyActive (splat C) (vecOf p) = sActive C p := by
  show (List.finRange 4).any (laneActive (splat C) (vecOf p)) = sActive C p
  have h : laneActive (splat C) (vecOf p) = fun _ => sActive C p := rfl
  rw [h]
  cases sActive C p <;> rfl

theorem stepIf_vecOf (v : FractalVariant) (x y : ℚ) (C : ℕ) (p : SKState) :
    stepIf (fractalBody v (splat x) (splat y) (splat C)) (splat C) (vecOf p) =
      vecOf (sStepIf v x y C p) := by
  unfold stepIf sStepIf
  rw [anyActive_vecOf]
  cases h : sActive C p
  · simp
  · simp only [if_pos rfl, if_true]
    rfl

theorem fractalSteps_vecOf (v : FractalVariant) (x y : ℚ) (C : ℕ) (n : ℕ) :
    fractalSteps v (splat x) (splat y) (splat C) n = vecOf (sSteps v x y C n) := by
  induction n with
  | zero =>
    show fractalInit v (splat x) (splat y) = vecOf (sInit v x y)
    cases v <;> rfl
  | succ n ih =>
    rw [fractalSteps_succ, ih]
    show _ = vecOf ((sStepIf v x y C)^[n + 1] (sInit v x y))
    rw [Function.iterate_succ_apply']
    exact stepIf_vecOf v x y C (sSteps v x y C n)

theorem sSteps_succ (v : FractalVariant) (x y : ℚ) (C n : ℕ) :
    sSteps v x y C (n + 1) = sStepIf v x y C (sSteps v x y C n) := by
  simp [sSteps, Function.iterate_succ_apply']

theorem sIter_le (v : FractalVariant) (x y : ℚ) (C : ℕ) :
    ∀ n, (sSteps v x y C n).iteration ≤ C := by
  intro n
  induction n with
  | zero =>
    show (sInit v x y).iteration ≤ C
    cases v <;> exact Nat.zero_le C
  | succ n ih =>
    rw [sSteps_succ]
    unfold sStepIf
    split
    case isTrue h =>
      have hlt : (sSteps v x y C n).iteration < C := by
        have h2 := h
        simp only [sActive, Bool.and_eq_true, decide_eq_true_eq] at h2
        exact h2.2
      show (if sActive C (sSteps v x y C n) = true then
          (sSteps v x y C n).iteration + 1 else (sSteps v x y C n).iteration) ≤ C
      split <;> omega
    case isFalse => exact ih

theorem sProgress (v : FractalVariant) (x y : ℚ) (C : ℕ) :
    ∀ n, (sSteps v x y C n).iteration = n ∨
      sStepIf v x y C (sSteps v x y C n) = sSteps v x y C n := by
  intro n
  induction n with
  | zero =>
    left
    show (sInit v x y).iteration = 0
    cases v <;> rfl
  | succ n ih =>
    rcases ih with ih | ih
    · cases h : sActive C (sSteps v x y C n)
      · right
        rw [sSteps_succ]
        have hfix : sStepIf v x y C (sSteps v x y C n) = sSteps v x y C n := by
          simp [sStepIf, h]
        rw [hfix]
        exact hfix
      · left
        rw [sSteps_succ]
        simp [sStepIf, sBody, h, ih]
    · right
      rw [sSteps_succ, ih]
      exact ih

theorem sSteps_stable (v : FractalVariant) (x y : ℚ) (C m : ℕ) (h : C ≤ m) :
    sSteps v x y C m = sSteps v x y C C := by
  have hfix : sStepIf v x y C (sSteps v x y C C) = sSteps v x y C C := by
    rcases sProgress v x y C C with hp | hp
    · have hna : sActive C (sSteps v x y C C) = false := by
        simp [sActive, hp]
      simp [sStepIf, hna]
    · exact hp
  have key : ∀ k, sSteps v x y C (k + C) = (sStepIf v x y C)^[k] (sSteps v x y C C) := by
    intro k
    show (sStepIf v x y C)^[k + C] (sInit v x y) = _
    rw [Function.iterate_add_apply]
    rfl
  have h2 := key (m - C)
  rw [show (m - C) + C = m by omega] at h2
  rw [h2, Function.iterate_fixed hfix]

theorem sRun (v : FractalVariant) (x y : ℚ) (C : ℕ) :
    ∀ k, (∀ j, j < k → magP (orbit v x y j) < 4 ∧ j < C) →
      sSteps v x y C k =
        ⟨(orbit v x y k).1, (orbit v x y k).2, k⟩ := by
  intro k
  induction k with
  | zero =>
    intro _
    show sInit v x y = _
    cases v <;> rfl
  | succ k ih =>
    intro h
    have hk := ih (fun j hj => h j (Nat.lt_succ_of_lt hj))
    rw [sSteps_succ, hk]
    have hact : sActive C ⟨(orbit v x y k).1, (orbit v x y k).2, k⟩ = true := by
      have h1 := (h k (Nat.lt_succ_self k)).1
      have h2 := (h k (Nat.lt_succ_self k)).2
      simp only [sActive, Bool.and_eq_true, decide_eq_true_eq]
      exact ⟨h1, h2⟩
    have hstep : sStepIf v x y C ⟨(orbit v x y k).1, (orbit v x y k).2, k⟩ =
        sBody v x y C ⟨(orbit v x y k).1, (orbit v x y k).2, k⟩ := by
      unfold sStepIf
      rw [if_pos hact]
    rw [hstep]
    unfold sBody
    rw [if_pos hact]
    have ho : orbit v x y (k + 1) =
        (stepX v x (orbit v x y k).1 (orbit v x y k).2,
         stepY v y (orbit v x y k).1 (orbit v x y k).2) := rfl
    rw [ho]

theorem sFractalKernel_eq (v : FractalVariant) (x y : ℚ) (C : ℕ) :
    sFractalKernel v x y C = (sSteps v x y C (C + 1)).iteration := rfl

theorem sKernel_le (v : FractalVariant) (x y : ℚ) (C : ℕ) :
    sFractalKernel v x y C ≤ C := by
  rw [sFractalKernel_eq]
  exact sIter_le v x y C (C + 1)

theorem sKernel_eq_cap_iff (v : FractalVariant) (x y : ℚ) (C : ℕ) :
    sFractalKernel v x y C = C ↔ ∀ n, n < C → magP (orbit v x y n) < 4 := by
  constructor
  · intro hC
    by_contra hR
    push_neg at hR
    have hex : ∃ n, n < C ∧ 4 ≤ magP (orbit v x y n) := hR
    let n0 := Nat.find hex
    have hspec := Nat.find_spec hex
    have hmin : ∀ j, j < n0 → ¬ (j < C ∧ 4 ≤ magP (orbit v x y j)) :=
      fun j hj => Nat.find_min hex hj
    have hrun : sSteps v x y C n0 =
        ⟨(orbit v x y n0).1, (orbit v x y n0).2, n0⟩ := by
      apply sRun
      intro j hj
      have hjC : j < C := lt_trans hj hspec.1
      have := hmin j hj
      push_neg at this
      exact ⟨lt_of_not_le (fun hc => absurd (this hjC) (not_lt.mpr hc)), hjC⟩
    have hinact : sActive C (sSteps v x y C n0) = false := by
      rw [hrun]
      have h4 := hspec.2
      simp only [magP] at h4
      simp [sActive, sMag, not_lt.mpr h4]
    have hfix : sStepIf v x y C (sSteps v x y C n0) = sSteps v x y C n0 := by
      simp [sStepIf, hinact]
    have hstall : ∀ m, sSteps v x y C (m + n0) = sSteps v x y C n0 := by
      intro m
      show (sStepIf v x y C)^[m + n0] (sInit v x y) = _
      rw [Function.iterate_add_apply]
      exact congrArg _ rfl |>.trans (Function.iterate_fixed hfix m)
    have hn0C := hspec.1
    have hval : sFractalKernel v x y C = n0 := by
      rw [sFractalKernel_eq]
      have hs := hstall (C + 1 - n0)
      rw [show C + 1 - n0 + n0 = C + 1 by omega] at hs
      rw [hs, hrun]
    rw [hval] at hC
    exact absurd hC (Nat.ne_of_lt hn0C)
  · intro h
    have hrun : sSteps v x y C C = ⟨(orbit v x y C).1, (orbit v x y C).2, C⟩ :=
      sRun v x y C C (fun j hj => ⟨h j hj, hj⟩)
    rw [sFractalKernel_eq, sSteps_stable v x y C (C + 1) (Nat.le_succ C), hrun]

theorem fractalKernel_splat (v : FractalVariant) (x y : ℚ) (C : ℕ) :
    fractalKernel v (splat x) (splat y) (splat C) =
      splat (sFractalKernel v x y C) := by
  funext i
  show (fractalSteps v (splat x) (splat y) (splat C) (fuel0 (splat C))).iteration i = _
  rw [fractalSteps_vecOf]
  show (sSteps v x y C (fuel0 (splat C))).iteration = sFractalKernel v x y C
  rw [sFractalKernel_eq]
  have h1 : fuel0 (splat C) = C + C + C + C + 1 := rfl
  rw [h1, sSteps_stable v x y C (C + C + C + C + 1) (by omega),
    sSteps_stable v x y C (C + 1) (by omega)]

/-- Claim C4: for every fractal variant, every input coordinate pair and every
cap `C`, the iteration count returned by the kernel lies in `[0, C]` (the lower
bound holds by the type), with `C` itself returned exactly when the point never
escapes (magnitude stays below 4) within the cap. -/
theorem fractal_kernel_range (v : FractalVariant) (x y : ℚ) (C : ℕ) (i : Fin 4) :
    fractalKernel v (splat x) (splat y) (splat C) i ≤ C ∧
      (fractalKernel v (splat x) (splat y) (splat C) i = C ↔
        ∀ n, n < C → magP (orbit v x y n) < 4) := by
  rw [fractalKernel_splat]
  exact ⟨sKernel_le v x y C, sKernel_eq_cap_iff v x y C⟩

theorem fractal_kernel_range_witness :
    fractalKernel FractalVariant.mandelbrot (splat 0) (splat 0) (splat 5) 0 = 5 := by
  have horbit : ∀ n, orbit FractalVariant.mandelbrot 0 0 n = (0, 0) := by
    intro n
    induction n with
    | zero => rfl
    | succ n ih =>
      show (stepX FractalVariant.mandelbrot 0 (orbit FractalVariant.mandelbrot 0 0 n).1
          (orbit FractalVariant.mandelbrot 0 0 n).2,
        stepY FractalVariant.mandelbrot 0 (orbit FractalVariant.mandelbrot 0 0 n).1
          (orbit FractalVariant.mandelbrot 0 0 n).2) = (0, 0)
      rw [ih]
      norm_num [stepX, stepY]
  exact (fractal_kernel_range FractalVariant.mandelbrot 0 0 5 0).2.mpr
    (fun n _ => by rw [horbit n]; norm_num [magP])

theorem subpixelValue_splat (px py w h : ℕ) (pos : Position) (C : ℕ)
    (v : FractalVariant) :
    subpixelValue px py w h pos (splat C) v =
      fun sy sx => splat (subpixelValue_s px py w h pos C v sy sx) := by
  funext sy sx
  show fractalKernel v _ _ (splat C) = _
  rw [show (scale_number (splat ((px * 2 + sx.val : ℕ) : ℚ)) (splat 0)
      (splat ((w : ℚ) * 2)) (splat pos.left) (splat pos.right)) =
      splat (scale_number_s ((px * 2 + sx.val : ℕ) : ℚ) 0 ((w : ℚ) * 2)
        pos.left pos.right) from rfl]
  rw [show (scale_number (splat ((py * 2 + sy.val : ℕ) : ℚ)) (splat 0)
      (splat ((h : ℚ) * 2)) (splat pos.top) (splat pos.bottom)) =
      splat (scale_number_s ((py * 2 + sy.val : ℕ) : ℚ) 0 ((h : ℚ) * 2)
        pos.top pos.bottom) from rfl]
  exact fractalKernel_splat v _ _ C

theorem subpixelsOnValues_splat (g : Fin 2 → Fin 2 → ℕ) :
    subpixelsOnValues (fun sy sx => splat (g sy sx)) =
      (subpixelsOnValues_s g).map splat := by
  unfold subpixelsOnValues subpixelsOnValues_s
  rw [List.map_map]
  rfl

theorem subpixelsOffValues_splat (g : Fin 2 → Fin 2 → ℕ) :
    subpixelsOffValues (fun sy sx => splat (g sy sx)) =
      (subpixelsOffValues_s g).map splat := by
  unfold subpixelsOffValues subpixelsOffValues_s
  rw [List.map_map]
  rfl

theorem wrapSumList_splat (l : List ℕ) :
    wrapSumList (l.map splat) = splat (wrapSumList_s l) := by
  unfold wrapSumList wrapSumList_s
  have key : ∀ (l : List ℕ) (acc : ℕ),
      (l.map splat).foldl u32add (splat acc) = splat (l.foldl u32add_s acc) := by
    intro l
    induction l with
    | nil => intro acc; rfl
    | cons a t ih =>
      intro acc
      show (t.map splat).foldl u32add (u32add (splat acc) (splat a)) = _
      rw [show u32add (splat acc) (splat a) = splat (u32add_s acc a) from rfl]
      exact ih (u32add_s acc a)
  exact key l 0

theorem listAverage_splat (l : List ℕ) :
    listAverage (l.map splat) = splat (listAverage_s l) := by
  unfold listAverage listAverage_s
  cases l with
  | nil => rfl
  | cons a t =>
    rw [if_neg (by simp), if_neg (by simp)]
    funext i
    show wrapSumList ((a :: t).map splat) i / ((a :: t).map splat).length = _
    rw [wrapSumList_splat, List.length_map]
    rfl

theorem get_color_splat (a C : ℕ) :
    get_color (splat a) (splat C) =
      (splat (get_color_s a C).1, splat (get_color_s a C).2.1,
       splat (get_color_s a C).2.2) := by
  unfold get_color get_color_s
  by_cases h1 : a = C
  · subst h1
    rw [if_pos rfl, if_pos rfl]
  · have hne : splat (α := ℕ) a ≠ splat C := fun hc => h1 (congrFun hc 0)
    rw [if_neg hne, if_neg h1]
    by_cases h2 : a = 0
    · subst h2
      rw [if_pos (show (splat (α := ℕ) 0) 0 = 0 from rfl), if_pos rfl]
    · rw [if_neg (show ¬ ((splat (α := ℕ) a) 0 = 0) from h2), if_neg h2]
      show hsl_to_rgb (splat ((a : ℚ) * 360 / (C : ℚ))) (splat 100) (splat 50) = _
      rfl

/-- Claim C10: every SIMD vector arising inside `calculate_pixel` holds four
identical lanes (all kernel inputs are built with `splat`), so the lane-0
extractions and the full-vector equality test in `get_color` all agree with a
width-1 scalar computation: `calculate_pixel` is extensionally equal to the
scalar reference implementation obtained by replacing every 4-lane vector by
one scalar. -/
theorem calculate_pixel_eq_scalar (px py w h : ℕ) (pos : Position) (C : ℕ)
    (v : FractalVariant) :
    calculate_pixel px py w h pos (splat C) v =
      calculate_pixel_s px py w h pos C v := by
  unfold calculate_pixel calculate_pixel_s
  rw [subpixelValue_splat px py w h pos C v]
  rw [subpixelsOnValues_splat, subpixelsOffValues_splat, List.length_map]
  by_cases hlen : (subpixelsOnValues_s (subpixelValue_s px py w h pos C v)).length = 4
  · rw [if_pos hlen, if_pos hlen]
    rw [show subpixelsMask (fun sy sx => splat (subpixelValue_s px py w h pos C v sy sx)) =
        subpixelsMask_s (subpixelValue_s px py w h pos C v) from rfl]
    rw [show subpixelsAverage (fun sy sx => splat (subpixelValue_s px py w h pos C v sy sx)) =
        splat (subpixelsAverage_s (subpixelValue_s px py w h pos C v)) from rfl]
    rw [get_color_splat]
    rfl
  · rw [if_neg hlen, if_neg hlen]
    rw [show subpixelsMask (fun sy sx => splat (subpixelValue_s px py w h pos C v sy sx)) =
        subpixelsMask_s (subpixelValue_s px py w h pos C v) from rfl]
    rw [listAverage_splat, listAverage_splat, get_color_splat, get_color_splat]
    rfl

-- ## C2 (code_bug evidence)
/-- Claim C2 (failing evaluation): `get_pixel` maps the left-column mask
(column 0 on in both rows) to the right half block and the right-column mask to
the left half block, the opposite of the claimed `▌`/`▐` assignment; the other
14 table entries match the claim. -/
theorem get_pixel_column_swap :
    get_pixel ((true, false), (true, false)) = some '▐' ∧
    get_pixel ((false, true), (false, true)) = some '▌' ∧
    '▐' ≠ '▌' := by
  refine ⟨rfl, rfl, ?_⟩
  decide

-- ## C9
/-- Claim C9: `get_pixel` is total: every one of the 16 possible 2-by-2
boolean masks is matched, and each returns a defined glyph character (the
`chars().next()` extraction never fails because every table entry is a
non-empty string). -/
theorem get_pixel_total :
    ∀ blocks : (Bool × Bool) × (Bool × Bool),
      (get_pixel blocks).isSome = true ∧
      get_pixel blocks ∈ [ some '█', some ' ', some '▙', some '▟', some '▛',
        some '▜', some '▚', some '▞', some '▄', some '▀', some '▌', some '▐',
        some '▖', some '▘', some '▝', some '▗'] := by
  decide

-- ## C6
/-- Claim C6: for every cap > 0, `get_color` returns black on iteration
vector equal to the cap vector, and white on the zero iteration vector. -/
theorem get_color_black_white (cap : ℕ) (hcap : 0 < cap) :
    get_color (splat cap) (splat cap) = (splat 0, splat 0, splat 0) ∧
    get_color (splat 0) (splat cap) = (splat 255, splat 255, splat 255) := by
  constructor
  · unfold get_color
    rw [if_pos rfl]
  · unfold get_color
    have hne : splat (α := ℕ) 0 ≠ splat cap := by
      intro hc
      have := congrFun hc 0
      simp only [splat] at this
      omega
    rw [if_neg hne, if_pos (show (splat (α := ℕ) 0) 0 = 0 from rfl)]

theorem get_color_black_white_witness :
    get_color (splat 100) (splat 100) = (splat 0, splat 0, splat 0) ∧
    get_color (splat 0) (splat 100) = (splat 255, splat 255, splat 255) :=
  get_color_black_white 100 (by norm_num)

-- ## C5
/-- Claim C5: in `calculate_pixel`, for every 2-by-2 grid of subpixel
iteration counts the set of subpixels classified on (lane-0 value at least the
truncated mean) is never empty, so the all-off partition branch is
unreachable. -/
theorem on_set_nonempty (vals : Fin 2 → Fin 2 → Vec4 ℕ) :
    subpixelsOnValues vals ≠ [] := by
  unfold subpixelsOnValues
  intro hc
  rw [List.map_eq_nil_iff] at hc
  rw [List.filter_eq_nil_iff] at hc
  have h00 := hc (0, 0) (by simp [subpixelOrder])
  have h01 := hc (0, 1) (by simp [subpixelOrder])
  have h10 := hc (1, 0) (by simp [subpixelOrder])
  have h11 := hc (1, 1) (by simp [subpixelOrder])
  simp only [subpixelOn, decide_eq_true_eq, not_le] at h00 h01 h10 h11
  have havg : subpixelsAverage vals 0 =
      subpixelsSum vals 0 / 4 := rfl
  have hsum : subpixelsSum vals 0 =
      ((((vals 0 0 0 + vals 0 1 0) % 2 ^ 32) + vals 1 0 0) % 2 ^ 32 +
        vals 1 1 0) % 2 ^ 32 := rfl
  rw [havg, hsum] at h00 h01 h10 h11
  omega

-- ## C8 helper
theorem foldl_capStep_inc :
    ∀ (k : ℕ) (c : ℕ), c < 2 ^ 32 →
      (List.replicate k CapEvent.inc).foldl capStep c = (c + 10 * k) % 2 ^ 32 := by
  intro k
  induction k with
  | zero =>
    intro c hc
    simp only [List.replicate_zero, List.foldl_nil, Nat.mul_zero, Nat.add_zero]
    exact (Nat.mod_eq_of_lt hc).symm
  | succ k ih =>
    intro c hc
    rw [List.replicate_succ, List.foldl_cons]
    have hstep : capStep c CapEvent.inc = (c + 10) % 2 ^ 32 := rfl
    rw [hstep, ih ((c + 10) % 2 ^ 32) (Nat.mod_lt _ (by norm_num))]
    conv_rhs => rw [show c + 10 * (k + 1) = c + 10 + 10 * k by ring]
    rw [Nat.mod_add_mod]

-- ## C8 counterexample
/-- Claim C8 (counterexample): starting from the initial cap 100, a sequence
of 429496720 increase events wraps the `u32` cap around `2 ^ 32` down to 4,
which is below 10, refuting the claim that the cap never drops below 10 under
every event sequence. -/
theorem cap_floor_counterexample :
    capRun (List.replicate 429496720 CapEvent.inc) = 4 ∧ 4 < 10 := by
  constructor
  · show (List.replicate 429496720 CapEvent.inc).foldl capStep 100 = 4
    rw [foldl_capStep_inc 429496720 100 (by norm_num)]
    norm_num
  · norm_num

-- ## C8 amended
/-- Claim C8 (amended): a decrease event at cap 10 is a no-op, and every
event preserves `cap >= 10` on the reachable multiples of 10, provided an
increase does not overflow the `u32` (`cap + 10 < 2 ^ 32`); only wraparound on
increase can take the cap below 10. -/
theorem cap_floor_amended :
    capStep 10 CapEvent.dec = 10 ∧
    ∀ (c : ℕ) (e : CapEvent), 10 ≤ c → 10 ∣ c →
      (e = CapEvent.dec ∨ c + 10 < 2 ^ 32) → 10 ≤ capStep c e := by
  constructor
  · rfl
  · intro c e hc hdvd he
    cases e
    · rcases he with he | he
      · exact absurd he (by intro h; cases h)
      · show 10 ≤ (c + 10) % 2 ^ 32
        rw [Nat.mod_eq_of_lt he]
        omega
    · show 10 ≤ if 10 < c then c - 10 else c
      split
      · obtain ⟨m, rfl⟩ := hdvd
        omega
      · omega

theorem cap_floor_amended_witness :
    capStep 10 CapEvent.dec = 10 ∧ 10 ≤ capStep 100 CapEvent.inc :=
  ⟨cap_floor_amended.1,
    cap_floor_amended.2 100 CapEvent.inc (by norm_num) (by norm_num)
      (Or.inr (by norm_num))⟩

-- ## binary64 helper lemmas for the pan/zoom claims

theorem fadd_zero_left (b : F64) : fadd ⟨0, 0⟩ b = b := rfl

theorem fdiv_zero_m (a b : F64) (h : a.m = 0) : fdiv a b = ⟨0, 0⟩ := by
  unfold fdiv
  rw [if_pos h]

theorem fadd_fneg_m (q : F64) : (fadd (fneg q) q).m = 0 := by
  unfold fadd fneg
  by_cases h : q.m = 0
  · simp only [neg_eq_zero, h, if_pos]
  · rw [if_neg (by simpa using h), if_neg h]
    simp only [min_self]
    have hM : -q.m * 2 ^ (q.e - q.e).toNat + q.m * 2 ^ (q.e - q.e).toNat = 0 := by
      ring
    rw [hM]
    rfl

theorem pcenter (p : PositionF) :
    p.center = (fdiv (fadd p.left p.right) f2, fdiv (fadd p.top p.bottom) f2) :=
  rfl

theorem center_zero_zoom (S T qx qy : F64) (hS : S.m = 0) (hT : T.m = 0) :
    PositionF.center ⟨fsub (fdiv T f2) qy, fadd (fdiv T f2) qy,
      fsub (fdiv S f2) qx, fadd (fdiv S f2) qx⟩ = (⟨0, 0⟩, ⟨0, 0⟩) ∧
    (fadd (fsub (fdiv S f2) qx) (fadd (fdiv S f2) qx)).m = 0 ∧
    (fadd (fsub (fdiv T f2) qy) (fadd (fdiv T f2) qy)).m = 0 := by
  rw [fdiv_zero_m S f2 hS, fdiv_zero_m T f2 hT]
  have hsx : fsub (⟨0, 0⟩ : F64) qx = fneg qx := fadd_zero_left (fneg qx)
  have hsy : fsub (⟨0, 0⟩ : F64) qy = fneg qy := fadd_zero_left (fneg qy)
  rw [hsx, hsy, fadd_zero_left, fadd_zero_left]
  refine ⟨?_, fadd_fneg_m qx, fadd_fneg_m qy⟩
  rw [pcenter]
  show (fdiv (fadd (fneg qx) qx) f2, fdiv (fadd (fneg qy) qy) f2) = _
  rw [fdiv_zero_m _ f2 (fadd_fneg_m qx), fdiv_zero_m _ f2 (fadd_fneg_m qy)]

theorem zoomInF_eq (p : PositionF) :
    zoomInF p = ⟨fsub (fdiv (fadd p.top p.bottom) f2)
        (fmul (fdiv (fsub p.bottom p.top) f2) f0_9),
      fadd (fdiv (fadd p.top p.bottom) f2)
        (fmul (fdiv (fsub p.bottom p.top) f2) f0_9),
      fsub (fdiv (fadd p.left p.right) f2)
        (fmul (fdiv (fsub p.right p.left) f2) f0_9),
      fadd (fdiv (fadd p.left p.right) f2)
        (fmul (fdiv (fsub p.right p.left) f2) f0_9)⟩ := rfl

theorem zoomOutF_eq (p : PositionF) :
    zoomOutF p = ⟨fsub (fdiv (fadd p.top p.bottom) f2)
        (fmul (fdiv (fsub p.bottom p.top) f2) f1_1),
      fadd (fdiv (fadd p.top p.bottom) f2)
        (fmul (fdiv (fsub p.bottom p.top) f2) f1_1),
      fsub (fdiv (fadd p.left p.right) f2)
        (fmul (fdiv (fsub p.right p.left) f2) f1_1),
      fadd (fdiv (fadd p.left p.right) f2)
        (fmul (fdiv (fsub p.right p.left) f2) f1_1)⟩ := rfl

theorem center_zero_of_sums (p : PositionF) (hx : (fadd p.left p.right).m = 0)
    (hy : (fadd p.top p.bottom).m = 0) : p.center = (⟨0, 0⟩, ⟨0, 0⟩) := by
  rw [pcenter, fdiv_zero_m _ f2 hx, fdiv_zero_m _ f2 hy]

-- ## C3 counterexample
/-- Claim C3 (counterexample): on the default viewport (a valid viewport,
left < right and top < bottom), the binary64 `w` pan followed by the inverse
`s` pan restores the viewport bit-exactly — the final roundings land on the
original endpoints — contradicting the claim that the round trip never exactly
returns the original rectangle. -/
theorem pan_round_trip_counterexample :
    flt defaultPositionF.left defaultPositionF.right ∧
    flt defaultPositionF.top defaultPositionF.bottom ∧
    panSf (panWf defaultPositionF) = defaultPositionF := by
  refine ⟨by decide, by decide, by decide⟩

-- ## C3 amended
/-- Claim C3 (amended): a pan followed by the pan in the algebraically inverse
direction does not restore the viewport in general, but not universally
either: it is input- and direction-dependent.  At the default viewport the
`a`-then-`d` round trip is inexact, leaving `left = -2.0000000000000004`
(significand -4503599627370497, exponent -51) and
`right = 1.0000000000000002`, while `w`-then-`s` restores it exactly; the
expected post-pan rectangle must therefore be verified via the stated scale
factors, not round-trip equality. -/
theorem pan_round_trip_inexact_at_default :
    panDf (panAf defaultPositionF) ≠ defaultPositionF ∧
    (panDf (panAf defaultPositionF)).left = ⟨-4503599627370497, -51⟩ ∧
    (panDf (panAf defaultPositionF)).right = ⟨4503599627370497, -52⟩ := by
  refine ⟨by decide, by decide, by decide⟩

-- ## C7 counterexample
/-- Claim C7 (counterexample): the binary64 zoom-out on the default viewport
moves the viewport's center: the x component drifts from -0.5 (significand
-4503599627370496 at exponent -53) to -0.5000000000000001 (significand
-4503599627370497), so zoom does not leave the center exactly unchanged on
every viewport. -/
theorem zoom_center_counterexample :
    (zoomOutF defaultPositionF).center ≠ defaultPositionF.center ∧
    (zoomOutF defaultPositionF).center.1 = ⟨-4503599627370497, -53⟩ ∧
    defaultPositionF.center.1 = ⟨-4503599627370496, -53⟩ := by
  refine ⟨by decide, by decide, by decide⟩

-- ## C7 amended
/-- Claim C7 (amended): zoom-in and zoom-out leave the viewport's center
exactly unchanged on every viewport whose endpoint sums are floating zero
(`left + right` and `top + bottom` evaluate to binary64 zero, i.e. the center
is exactly 0 on each axis); this is stable under zooming, so a zoom-in
followed by a zoom-out also leaves the center fixed.  On other viewports the
final roundings can move the center, as zoom-out does at the default
viewport. -/
theorem zoom_center_fixed_of_centered (p : PositionF)
    (hx : (fadd p.left p.right).m = 0) (hy : (fadd p.top p.bottom).m = 0) :
    (zoomInF p).center = p.center ∧ (zoomOutF p).center = p.center ∧
    (zoomOutF (zoomInF p)).center = p.center := by
  have hc := center_zero_of_sums p hx hy
  have hin := center_zero_zoom (fadd p.left p.right) (fadd p.top p.bottom)
    (fmul (fdiv (fsub p.right p.left) f2) f0_9)
    (fmul (fdiv (fsub p.bottom p.top) f2) f0_9) hx hy
  have hout := center_zero_zoom (fadd p.left p.right) (fadd p.top p.bottom)
    (fmul (fdiv (fsub p.right p.left) f2) f1_1)
    (fmul (fdiv (fsub p.bottom p.top) f2) f1_1) hx hy
  refine ⟨?_, ?_, ?_⟩
  · rw [zoomInF_eq, hin.1, hc]
  · rw [zoomOutF_eq, hout.1, hc]
  · have hx2 : (fadd (zoomInF p).left (zoomInF p).right).m = 0 := by
      rw [zoomInF_eq]
      exact hin.2.1
    have hy2 : (fadd (zoomInF p).top (zoomInF p).bottom).m = 0 := by
      rw [zoomInF_eq]
      exact hin.2.2
    have hout2 := center_zero_zoom (fadd (zoomInF p).left (zoomInF p).right)
      (fadd (zoomInF p).top (zoomInF p).bottom)
      (fmul (fdiv (fsub (zoomInF p).right (zoomInF p).left) f2) f1_1)
      (fmul (fdiv (fsub (zoomInF p).bottom (zoomInF p).top) f2) f1_1) hx2 hy2
    rw [zoomOutF_eq (zoomInF p), hout2.1, hc]

theorem zoom_center_fixed_of_centered_witness :
    (fadd (⟨ofIntF (-1), ofIntF 1, ofIntF (-1), ofIntF 1⟩ : PositionF).left
      (⟨ofIntF (-1), ofIntF 1, ofIntF (-1), ofIntF 1⟩ : PositionF).right).m = 0 ∧
    (zoomInF ⟨ofIntF (-1), ofIntF 1, ofIntF (-1), ofIntF 1⟩).center =
      (⟨ofIntF (-1), ofIntF 1, ofIntF (-1), ofIntF 1⟩ : PositionF).center :=
  ⟨by decide,
    (zoom_center_fixed_of_centered ⟨ofIntF (-1), ofIntF 1, ofIntF (-1), ofIntF 1⟩
      (by decide) (by decide)).1⟩
